import Mathlib

/-!
Verification development for the WordPress-export importer
(`wagtail_wordpress_import/importers/wordpress.py`).

The importer is shallowly embedded: Python dicts become insertion-ordered
association lists, Python strings become Lean `String` with the string
operations the source uses (`split`, `join`, `lower`, Django `slugify`,
CPython `strptime` for the one fixed format) re-implemented as structural
recursion over `List Char` so that every definition evaluates by kernel
reduction.  Fallible Python code (bracket dict access, attribute access on
`None`, `strptime` failures) returns `Except PyErr`.  The external
collaborator stages (line-break filter, style fixer, bleach cleaner, block
builder, JSON serialisation of blocks) are parameters gathered in an
`Externals` structure, exactly as the source treats them as imported black
boxes.
-/

deriving instance DecidableEq for Except

namespace WpImport

/-! ## Python string primitives -/

/-- Splitter used to model Python `str.split(sep)` for a one-character
separator: splits at every separator occurrence, keeping empty pieces
(`"".split(",") == [""]`, `"a,,b".split(",") == ["a","","b"]`). -/
def splitChAux (p : Char → Bool) : List Char → List Char → List (List Char)
  | [], acc => [acc.reverse]
  | c :: rest, acc =>
    if p c then acc.reverse :: splitChAux p rest [] else splitChAux p rest (c :: acc)

/-- Python `s.split(sep)` for a single-character separator. -/
def pySplit (s : String) (sep : Char) : List String :=
  (splitChAux (fun c => c == sep) s.data []).map (fun l => String.mk l)

/-- Python `sep.join(parts)`. -/
def pyJoin (sep : String) (parts : List String) : String :=
  match parts with
  | [] => ""
  | p :: rest => String.mk (p.data ++ rest.foldl (fun acc q => acc ++ sep.data ++ q.data) [])

/-- Python `str(x)` for an optional string: `str(None)` is the text `"None"`,
`str(s)` is `s` itself. -/
def pyStr : Option String → String
  | none => "None"
  | some s => s

/-- Python truthiness of an optional string: `None` and `""` are falsy. -/
def truthy : Option String → Bool
  | none => false
  | some s => s ≠ ""

/-! ## Python dicts as insertion-ordered association lists -/

/-- Python `d.get(k)`: `None` when the key is missing. -/
def alistGet {α : Type} (d : List (String × α)) (k : String) : Option α :=
  (d.find? (fun p => p.1 == k)).map (·.2)

/-- Python `d[k] = v`: replace in place when the key exists (keeping its
position, as CPython dicts do), append otherwise. -/
def alistInsert {α : Type} : List (String × α) → String → α → List (String × α)
  | [], k, v => [(k, v)]
  | p :: rest, k, v => if p.1 == k then (k, v) :: rest else p :: alistInsert rest k v

/-- Python exceptions the embedded importer code can raise. -/
inductive PyErr : Type
  /-- `d[k]` on a missing key. -/
  | keyError (k : String)
  /-- attribute access on `None` (e.g. `None.split`). -/
  | attributeError
  /-- `ValueError` from `datetime.strptime` on an unparsable date string. -/
  | valueError
  deriving DecidableEq

/-- Python `d[k]` bracket access: raises `KeyError` on a missing key — unlike
`d.get(k)`, which returns `None`. -/
def alistIndex {α : Type} (d : List (String × α)) (k : String) : Except PyErr α :=
  match alistGet d k with
  | some v => .ok v
  | none => .error (.keyError k)

/-- Python `d.get(k)` where the key expression itself may be `None`
(`item.get(inverse.get(f))`): a `None` key finds nothing. -/
def alistGetOpt {α : Type} (d : List (String × α)) (k : Option String) : Option α :=
  match k with
  | none => none
  | some k => alistGet d k

/-- A raw record parsed out of one `<item>` of the export document
(`node_to_dict`): source field name to raw text. -/
abbrev RawItem : Type := List (String × String)

/-- A heterogeneous Python value as stored in the importer's dicts and logs:
either a string or a boolean. -/
inductive PyVal : Type
  | pyBool (b : Bool)
  | pyStr (s : String)
  deriving DecidableEq

/-! ## Django `slugify`

`django.utils.text.slugify(value)` (ASCII path): lower-case, drop every
character that is not alphanumeric, underscore, whitespace or hyphen, then
collapse runs of whitespace/hyphens into a single hyphen and strip leading
and trailing hyphens/underscores. -/

/-- A regex `\w` word character of the ASCII fragment. -/
def isWordChar (c : Char) : Bool := c.isAlphanum || c == '_'

/-- A regex `\s` whitespace character of the ASCII fragment. -/
def isSpaceChar (c : Char) : Bool :=
  c == ' ' || c == '\t' || c == '\n' || c == '\r' || c == '\x0b' || c == '\x0c'

/-- Model of `re.sub(r"[-\s]+", "-", value)`: collapse each run of hyphens/whitespace
into one hyphen.  The flag records whether the previous character was part of
such a run. -/
def collapseSep (prevSep : Bool) : List Char → List Char
  | [] => []
  | c :: rest =>
    if isSpaceChar c || c == '-' then
      if prevSep then collapseSep true rest else '-' :: collapseSep true rest
    else c :: collapseSep false rest

/-- Python `.strip("-_")`: drop leading and trailing hyphens/underscores. -/
def stripDashUnderscore (l : List Char) : List Char :=
  ((l.dropWhile fun c => c == '-' || c == '_').reverse.dropWhile
    fun c => c == '-' || c == '_').reverse

/-- Django `slugify` on the ASCII fragment. -/
def slugify (s : String) : String :=
  let lowered := s.data.map Char.toLower
  let kept := lowered.filter (fun c => isWordChar c || isSpaceChar c || c == '-')
  String.mk (stripDashUnderscore (collapseSep false kept))

/-- Embedding of `WordpressImporter.parse_slug(value, title)`: derive a slug from the title
when the raw slug is falsy (reporting `"blank slug"`), otherwise slugify the
raw slug (reporting `"OK"`); if the raw slug was truthy and slugification
changed it, the report is overridden to `"illegal chars found"`. -/
def parse_slug (value : Option String) (title : Option String) : String × String :=
  let sc : String × String :=
    if truthy value then (slugify (pyStr value), "OK")
    else (slugify (pyStr title), "blank slug")
  let changed :=
    if truthy value && sc.1 != pyStr value then "illegal chars found" else sc.2
  (sc.1, changed)

/-! ## `datetime.strptime(s, "%Y-%m-%dT%H:%M:%S")`

Modelled for the ASCII-digit fragment of CPython `_strptime`: `%Y` is exactly
four digits; `%m`, `%d`, `%H`, `%M`, `%S` are one or two digits within their
ranges; the literal `T` matches case-insensitively (the format is compiled
with `IGNORECASE`); the whole string must be consumed; finally the
`datetime(...)` constructor checks the day against the month length and the
year against `MINYEAR = 1`. -/

/-- A naive `datetime.datetime` value. -/
structure NaiveDT : Type where
  year : Nat
  month : Nat
  day : Nat
  hour : Nat
  minute : Nat
  second : Nat
  deriving DecidableEq

/-- Numeric value of a list of ASCII digit characters, `none` if empty or
not all digits. -/
def digitsVal : List Char → Option Nat
  | l =>
    if l ≠ [] ∧ l.all Char.isDigit then
      some (l.foldl (fun a c => a * 10 + (c.toNat - 48)) 0)
    else none

/-- One-or-two-digit numeric field of `strptime` with inclusive bounds. -/
def parseTwo (lo hi : Nat) (l : List Char) : Option Nat :=
  match digitsVal l with
  | some v => if l.length ≤ 2 ∧ lo ≤ v ∧ v ≤ hi then some v else none
  | none => none

/-- Four-digit `%Y` field. -/
def parseYear (l : List Char) : Option Nat :=
  match digitsVal l with
  | some v => if l.length = 4 then some v else none
  | none => none

/-- Gregorian leap year, as `datetime` uses. -/
def isLeap (y : Nat) : Bool := y % 4 == 0 && (y % 100 != 0 || y % 400 == 0)

/-- Length of a month, as the `datetime` constructor checks. -/
def daysInMonth (y m : Nat) : Nat :=
  if m = 2 then (if isLeap y then 29 else 28)
  else if m = 4 ∨ m = 6 ∨ m = 9 ∨ m = 11 then 30
  else 31

/-- Model of `datetime.strptime(s, "%Y-%m-%dT%H:%M:%S")`: `none` models the
`ValueError` raised on an unparsable string. -/
def strptimeYmdTHMS (s : String) : Option NaiveDT :=
  match splitChAux (fun c => c == 'T' || c == 't') s.data [] with
  | [datePart, timePart] =>
    match splitChAux (fun c => c == '-') datePart [],
        splitChAux (fun c => c == ':') timePart [] with
    | [ys, ms, ds], [hs, mins, ss] =>
      match parseYear ys, parseTwo 1 12 ms, parseTwo 1 31 ds,
          parseTwo 0 23 hs, parseTwo 0 59 mins, parseTwo 0 59 ss with
      | some y, some mo, some d, some h, some mi, some sec =>
        if 1 ≤ y ∧ d ≤ daysInMonth y mo then some ⟨y, mo, d, h, mi, sec⟩ else none
      | _, _, _, _, _, _ => none
    | _, _ => none
  | _ => none

/-- A timezone-aware timestamp as produced by
`django.utils.timezone.make_aware`; the ambient timezone is not modelled. -/
structure AwareDT : Type where
  naive : NaiveDT
  deriving DecidableEq

/-- Model of `django.utils.timezone.make_aware`. -/
def make_aware (d : NaiveDT) : AwareDT := ⟨d⟩

/-- Embedding of `WordpressImporter.parse_date(value)`.  The sentinel
`"0000-00-00 00:00:00"` is replaced by `"1900-01-01 00:00:00"` with the
validity flag set to `False`; then spaces are joined with `"T"` and the
result is parsed with `strptime`.  The argument is the raw `item.get(...)`
value, so it may be `None`, on which `value.split(" ")` raises an
`AttributeError`. -/
def parse_date : Option String → Except PyErr (AwareDT × Bool)
  | none => .error .attributeError
  | some value =>
    let vv : String × Bool :=
      if value == "0000-00-00 00:00:00" then ("1900-01-01 00:00:00", false)
      else (value, true)
    let date_utc := pyJoin "T" (pySplit vv.1 ' ')
    match strptimeYmdTHMS date_utc with
    | some d => .ok (make_aware d, vv.2)
    | none => .error .valueError

/-! ## External collaborator stages -/

/-- The imported external stages the importer composes but does not define:
the WordPress line-break filter, the style fixer, the bleach cleaner, the
block builder, and `json.dumps` on a block sequence (plain and with
`indent=4`).  `β` is the opaque type of a built block sequence. -/
structure Externals (β : Type) : Type where
  linebreaks_wp : String → String
  fix_styles : String → String
  bleach_clean : String → String
  build : String → β
  dumps : β → String
  dumpsIndent : β → String

/-- Embedding of `WordpressImporter.parse_stream_fields(value)`: line-break conversion,
then style fixing, then bleach cleaning, then block building; returns
`(json.dumps(blocks), cleaned_value, blocks)`.  The leading `str(value)`
coerces a missing raw value (`None`) to text; the later `str(...)` wrappers
in the source are identities on strings and are dropped here. -/
def parse_stream_fields {β : Type} (E : Externals β) (value : Option String) :
    String × String × β :=
  let v1 := E.linebreaks_wp (pyStr value)
  let v2 := E.fix_styles v1
  let v3 := E.bleach_clean v2
  let blocks := E.build v3
  (E.dumps blocks, v3, blocks)

/-! ## The mapping configuration and its inversion -/

/-- The shape of `wordpress_mapping.mapping`: the `item` field map (source
field to a comma-separated list of the page fields it feeds) and the
comma-separated lists of page fields that need date validation, slug
validation, and stream-field building. -/
structure Mapping : Type where
  item : List (String × String)
  validate_date : String
  validate_slug : String
  stream_fields : String

/-- Embedding of `WordpressImporter.map_item_inverse()`: for every entry of the field map,
split its value on commas and register each piece as a key mapping back to
the entry's key.  (The source's `len(value) == 1` special case performs the
same writes as the general loop.)  A piece registered twice keeps the later
entry's key: last write wins. -/
def map_item_inverse (mapping_item : List (String × String)) : List (String × String) :=
  mapping_item.foldl
    (fun inverse kv =>
      (pySplit kv.2 ',').foldl (fun inv v => alistInsert inv v kv.1) inverse)
    []

/-! ## `get_values`: transforming one raw record -/

/-- A value stored on the page model: a string or an aware timestamp. -/
inductive PValue : Type
  | str (s : String)
  | date (d : AwareDT)
  deriving DecidableEq

/-- The `page_values` dict being built for the page model constructor. -/
abbrev PageDict : Type := List (String × PValue)

/-- The loop `for field, mapped in self.mapping_item_inverse.items():
page_values[field] = item[mapped]` — note the bracket access on `item`,
which raises `KeyError` when the mapped source field is absent. -/
def copyFields (item : RawItem) : List (String × String) → PageDict → Except PyErr PageDict
  | [], acc => .ok acc
  | (field, mapped) :: rest, acc =>
    match alistIndex item mapped with
    | .ok v => copyFields item rest (alistInsert acc field (.str v))
    | .error e => .error e

/-- The stream-field loop of `get_values`: each stream field gets the
serialized blocks, and the keys `wp_processed_content` / `wp_block_json`
get the cleaned text and the indent-4 JSON dump of the blocks. -/
def streamLoop {β : Type} (E : Externals β) (inverse : List (String × String))
    (item : RawItem) : List String → PageDict → PageDict
  | [], acc => acc
  | html :: rest, acc =>
    let r := parse_stream_fields E (alistGetOpt item (alistGet inverse html))
    let acc := alistInsert acc html (.str r.1)
    let acc := alistInsert acc "wp_processed_content" (.str r.2.1)
    let acc := alistInsert acc "wp_block_json" (.str (E.dumpsIndent r.2.2))
    streamLoop E inverse item rest acc

/-- The date loop of `get_values`: parse each configured date field, store
the timestamp, and append the per-field validity flag to `date_valid`. -/
def dateLoop (inverse : List (String × String)) (item : RawItem) :
    List String → PageDict → List Bool → Except PyErr (PageDict × List Bool)
  | [], acc, dv => .ok (acc, dv)
  | df :: rest, acc, dv =>
    match parse_date (alistGetOpt item (alistGet inverse df)) with
    | .ok date => dateLoop inverse item rest (alistInsert acc df (.date date.1)) (dv ++ [date.2])
    | .error e => .error e

/-- The slug loop of `get_values`: normalize each configured slug field
(title looked up directly on the record) and overwrite `slug_changed` with
this field's outcome. -/
def slugLoop (inverse : List (String × String)) (item : RawItem) :
    List String → PageDict → PyVal → PageDict × PyVal
  | [], acc, sc => (acc, sc)
  | sf :: rest, acc, _sc =>
    let slug := parse_slug (alistGetOpt item (alistGet inverse sf)) (alistGet item "title")
    slugLoop inverse item rest (alistInsert acc sf (.str slug.1)) (.pyStr slug.2)

/-- Embedding of `WordpressImporter.get_values(item)`: copy every inverse-mapped field,
then build the stream fields, then the date fields (reducing the collected
flags with `all(...)`), then the slug fields (`slug_changed` starts as the
Python `False` and is overwritten by each slug field's outcome).  Returns
`(page_values, date_valid, slug_changed)`. -/
def get_values {β : Type} (E : Externals β) (m : Mapping) (item : RawItem) :
    Except PyErr (PageDict × Bool × PyVal) :=
  let inverse := map_item_inverse m.item
  let date_fields := pySplit m.validate_date ','
  let slug_fields := pySplit m.validate_slug ','
  let stream_fields := pySplit m.stream_fields ','
  match copyFields item inverse [] with
  | .error e => .error e
  | .ok pv =>
    let pv := streamLoop E inverse item stream_fields pv
    match dateLoop inverse item date_fields pv [] with
    | .error e => .error e
    | .ok (pv, date_valid) =>
      let r := slugLoop inverse item slug_fields pv (.pyBool false)
      .ok (r.1, date_valid.all id, r.2)

/-! ## Reconciliation: `create_page` / `update_page` -/

/-- A persisted page object: its field values and its `live` flag. -/
structure PageObj : Type where
  fields : PageDict
  live : Bool
  deriving DecidableEq

/-- Primitive page-store operations, recorded as a trace so that theorems
can state which side effects each reconciliation path performs and in which
order.  `addChild` is the attachment of a new page under the configured
parent page; `unpublish` is Wagtail's `Page.unpublish()`, which takes the
page off live. -/
inductive PageOp : Type
  | setLive (b : Bool)
  | addChild
  | setField (k : String) (v : PValue)
  | save
  | unpublish
  deriving DecidableEq

/-- Embedding of `WordpressImporter.create_page(values, status)`: build a page from all
transformed values, set `live` to `False` for a `draft` source status and
`True` otherwise, attach it under the parent page, and return it with the
outcome `"created"`. -/
def create_page (values : PageDict) (status : Option String) :
    PageObj × String × List PageOp :=
  let live := if status == some "draft" then false else true
  let obj : PageObj := { fields := values, live := live }
  (obj, "created", [.setLive live, .addChild])

/-- Model of `setattr(obj, key, values[key])` for every key of `values`, in dict
order. -/
def applySetFields (fields : PageDict) (values : PageDict) : PageDict :=
  values.foldl (fun fs kv => alistInsert fs kv.1 kv.2) fields

/-- Embedding of `WordpressImporter.update_page(page_exists, values, status)`: overwrite
every transformed field on the existing page, save it, and unpublish it when
the source status is `draft`; the outcome is `"updated"`.  The update path
never assigns the `live` flag directly — a draft goes off live only through
the `unpublish` side effect. -/
def update_page (page : PageObj) (values : PageDict) (status : Option String) :
    PageObj × String × List PageOp :=
  let obj : PageObj := { page with fields := applySetFields page.fields values }
  let trace := values.map (fun kv => PageOp.setField kv.1 kv.2) ++ [PageOp.save]
  if status == some "draft" then
    ({ obj with live := false }, "updated", trace ++ [.unpublish])
  else
    (obj, "updated", trace)

/-! ## The import run -/

/-- The run options taken from the command line: the allow-lists of post
types and statuses.  (The page-model and parent-page lookups, which abort
the run before any record is processed when they fail, are resolved before
the item loop and are not modelled.) -/
structure RunConfig : Type where
  page_types : List String
  page_statuses : List String

/-- Python `x in l` for an optional string against a string list. -/
def optMem (v : Option String) (l : List String) : Bool :=
  match v with
  | none => false
  | some s => l.contains s

/-- The eligibility filter of `run`: the item's `wp:post_type` is in the
type allow-list and its `wp:status` is in the status allow-list. -/
def eligible (cfg : RunConfig) (item : RawItem) : Bool :=
  optMem (alistGet item "wp:post_type") cfg.page_types &&
  optMem (alistGet item "wp:status") cfg.page_statuses

/-- The `item["log"]` dict the run attaches to every processed item. -/
structure LogEntry : Type where
  result : String
  reason : String
  datecheck : PyVal
  slugcheck : PyVal
  deriving DecidableEq

/-- The log entry of a skipped (ineligible) item. -/
def skipEntry : LogEntry :=
  ⟨"skipped", "no title or status match", .pyStr "", .pyStr ""⟩

/-- The identity a page carries for reconciliation: its `wp_post_id`
attribute, when it is a string value. -/
def pageWpPostId (p : PageObj) : Option String :=
  match alistGet p.fields "wp_post_id" with
  | some (.str s) => some s
  | _ => none

/-- Model of `self.page_model_instance.objects.filter(wp_post_id=...).first()`:
the first stored page whose identity field equals the item's
`wp:post_id`. -/
def storeFind (store : List PageObj) (postId : Option String) : Option PageObj :=
  store.find? (fun p => pageWpPostId p == postId)

/-- Persisting `update_page`'s mutation of the matched page: the first page
satisfying the predicate is replaced by the updated object. -/
def replaceFirst (pred : PageObj → Bool) (newObj : PageObj) :
    List PageObj → List PageObj
  | [] => []
  | p :: rest => if pred p then newObj :: rest else p :: replaceFirst pred newObj rest

/-- The whole mutable state of one `run`: the page store and the logging
counters/audit list of the importer. -/
structure RunState : Type where
  store : List PageObj
  processed : Nat
  imported : Nat
  skipped : Nat
  logged : List (RawItem × LogEntry)
  deriving DecidableEq

/-- The body of `run`'s item loop for one expanded `<item>` node:
`log_processed` always increments; an eligible item is transformed with
`get_values` and reconciled against the store by `wp:post_id` (update when a
page exists, create otherwise), incrementing `log_imported`; an ineligible
item only gets the skip log entry and increments `log_skipped`.  Every item
is appended to `logged_items` with its log entry. -/
def processItem {β : Type} (E : Externals β) (m : Mapping) (cfg : RunConfig)
    (st : RunState) (item : RawItem) : Except PyErr RunState :=
  let processed := st.processed + 1
  if eligible cfg item then
    match get_values E m item with
    | .error e => .error e
    | .ok (values, dates_valid, slugs_valid) =>
      let postId := alistGet item "wp:post_id"
      let status := alistGet item "wp:status"
      match storeFind st.store postId with
      | some page =>
        let r := update_page page values status
        .ok { store := replaceFirst (fun q => pageWpPostId q == postId) r.1 st.store,
              processed := processed, imported := st.imported + 1, skipped := st.skipped,
              logged := st.logged ++
                [(item, ⟨"updated", "existed", .pyBool dates_valid, slugs_valid⟩)] }
      | none =>
        let r := create_page values status
        .ok { store := st.store ++ [r.1],
              processed := processed, imported := st.imported + 1, skipped := st.skipped,
              logged := st.logged ++
                [(item, ⟨"created", "new", .pyBool dates_valid, slugs_valid⟩)] }
  else
    .ok { store := st.store, processed := processed, imported := st.imported,
          skipped := st.skipped + 1, logged := st.logged ++ [(item, skipEntry)] }

/-- The item loop of `run` over the remaining document items. -/
def runItems {β : Type} (E : Externals β) (m : Mapping) (cfg : RunConfig)
    (st : RunState) : List RawItem → Except PyErr RunState
  | [] => .ok st
  | item :: rest =>
    match processItem E m cfg st item with
    | .error e => .error e
    | .ok st' => runItems E m cfg st' rest

/-- Embedding of `WordpressImporter.run`: stream the document's items in document order
(the pulldom stream is modelled as the item list) over an initial page store,
with fresh counters and a fresh audit list.  The source returns
`(log_imported, log_skipped, log_processed, logged_items)`; the final
`RunState` carries those four values together with the resulting store. -/
def run {β : Type} (E : Externals β) (m : Mapping) (cfg : RunConfig)
    (items : List RawItem) (store : List PageObj) : Except PyErr RunState :=
  runItems E m cfg ⟨store, 0, 0, 0, []⟩ items

/-- Modelled from the spec: the repository's `wordpress_mapping.mapping`
module is imported by the importer but is not under `src/`.  Per the spec,
the field map carries the stable identity (`wp:post_id` feeds the page's
`wp_post_id` field, the sole reconciliation key), the title, the slug
(slug-validated), the content (a stream field), and the post date feeding
the date-validated publication fields. -/
def wordpress_mapping : Mapping :=
  { item := [("title", "title"),
             ("wp:post_id", "wp_post_id"),
             ("wp:post_name", "slug"),
             ("content:encoded", "body"),
             ("wp:post_date", "first_published_at,last_published_at,latest_revision_created_at")],
    validate_date := "first_published_at,last_published_at,latest_revision_created_at",
    validate_slug := "slug",
    stream_fields := "body" }

/-- A trivial instantiation of the external stages, used to evaluate the
pipeline on concrete inputs in witnesses: every text filter is the identity
and the block builder wraps the text in a one-element list. -/
def idExternals : Externals (List String) :=
  { linebreaks_wp := id, fix_styles := id, bleach_clean := id,
    build := fun s => [s],
    dumps := fun b => pyJoin "," b,
    dumpsIndent := fun b => pyJoin ",\n" b }

/-- An instrumented instantiation of the external stages: each stage tags the
text with its own name, so the intermediate processed value records the order
in which the stages ran. -/
def tagExternals : Externals (List String) :=
  { linebreaks_wp := fun s => s ++ "<lb>", fix_styles := fun s => s ++ "<fix>",
    bleach_clean := fun s => s ++ "<clean>",
    build := fun s => [s ++ "<build>"],
    dumps := fun b => pyJoin "," b,
    dumpsIndent := fun b => pyJoin ",\n" b }


/-- The sequence of `inverse[piece] = key` writes that `map_item_inverse`
performs, in execution order: for each entry, one write per comma-separated
piece of its value, all mapping back to the entry's key. -/
def invWrites : List (String × String) → List (String × String)
  | [] => []
  | kv :: rest => (pySplit kv.2 ',').map (fun v => (v, kv.1)) ++ invWrites rest

/-- An identifier-safe slug character: ASCII alphanumeric, hyphen or
underscore. -/
def isSlugSafeChar (c : Char) : Bool := c.isAlphanum || c == '-' || c == '_'

/-- The per-date-field validity flag `parse_date` reports when it succeeds:
`false` exactly when the raw value is the sentinel that triggers the
fallback substitution. -/
def dateFlagOf (inverse : List (String × String)) (item : RawItem) (df : String) : Bool :=
  !(decide (alistGetOpt item (alistGet inverse df) = some "0000-00-00 00:00:00"))

/-- The mapping properties the spec asserts for the identity field: the
inverted field map resolves the page field `wp_post_id` to the source field
`wp:post_id`, and `wp_post_id` is not among the date-, slug- or
stream-validated fields (so no later normalizer overwrites it). -/
abbrev IdentityMapped (m : Mapping) : Prop :=
  alistGet (map_item_inverse m.item) "wp_post_id" = some "wp:post_id" ∧
  "wp_post_id" ∉ pySplit m.validate_date ',' ∧
  "wp_post_id" ∉ pySplit m.validate_slug ',' ∧
  "wp_post_id" ∉ pySplit m.stream_fields ','

/-- Some stored page carries the given identity. -/
def hasId (store : List PageObj) (pid : Option String) : Prop :=
  ∃ p ∈ store, pageWpPostId p = pid

/-! ## Concrete fixtures used by witnesses -/

/-- A run configuration accepting published and draft posts. -/
def exCfg : RunConfig := { page_types := ["post"], page_statuses := ["publish", "draft"] }

/-- An eligible raw item carrying every source field of the modelled
mapping. -/
def exItem : RawItem :=
  [("title", "Hello World"), ("wp:post_id", "42"), ("wp:post_name", "hello-world"),
   ("content:encoded", "<p>hi</p>"), ("wp:post_date", "2021-05-06 07:08:09"),
   ("wp:post_type", "post"), ("wp:status", "publish")]

/-- An ineligible raw item (an attachment, not a post). -/
def exSkipItem : RawItem :=
  [("title", "some attachment"), ("wp:post_id", "43"), ("wp:post_type", "attachment"),
   ("wp:status", "inherit")]

/-- An eligible raw item whose date is the sentinel `0000-00-00 00:00:00`. -/
def exSentinelItem : RawItem :=
  [("title", "Old Post"), ("wp:post_id", "44"), ("wp:post_name", "old-post"),
   ("content:encoded", "<p>old</p>"), ("wp:post_date", "0000-00-00 00:00:00"),
   ("wp:post_type", "post"), ("wp:status", "publish")]

/-- A mapping with two slug-validated fields, to exhibit the last-field-wins
behaviour of the slug outcome. -/
def twoSlugMapping : Mapping :=
  { item := [("title", "title"), ("wp:post_name", "slug"), ("wp:alt_name", "slug2"),
             ("wp:post_date", "pub_date")],
    validate_date := "pub_date",
    validate_slug := "slug,slug2",
    stream_fields := "body" }

/-- An item whose first slug field is already clean and whose second slug
field needs repair, so the two slug outcomes differ. -/
def twoSlugItem : RawItem :=
  [("title", "Hello"), ("wp:post_name", "good-slug"), ("wp:alt_name", "Bad Slug!"),
   ("wp:post_date", "2020-01-02 03:04:05")]

/-- A one-entry mapping whose single source field is absent from the empty
record, to exhibit the `KeyError` of the field-copy loop. -/
def missingMapping : Mapping :=
  { item := [("wp:title", "title")], validate_date := "d", validate_slug := "s",
    stream_fields := "b" }

/-! ## Association-list lemmas -/

theorem beq_ne {k k' : String} (h : k ≠ k') : (k == k') = false :=
  beq_eq_false_iff_ne.mpr h

theorem alistGet_nil {α : Type} (k : String) : alistGet ([] : List (String × α)) k = none := rfl

theorem alistGet_cons {α : Type} (q : String × α) (l : List (String × α)) (k : String) :
    alistGet (q :: l) k = if q.1 = k then some q.2 else alistGet l k := by
  by_cases h : q.1 = k
  · rw [if_pos h]
    unfold alistGet
    rw [List.find?_cons_of_pos _ (by simp [h])]
    rfl
  · rw [if_neg h]
    unfold alistGet
    rw [List.find?_cons_of_neg _ (by simp [beq_iff_eq, h])]

theorem alistInsert_cons_eq {α : Type} {q : String × α} {l : List (String × α)}
    {k : String} (v : α) (h : q.1 = k) : alistInsert (q :: l) k v = (k, v) :: l := by
  simp [alistInsert, h]

theorem alistInsert_cons_ne {α : Type} {q : String × α} {l : List (String × α)}
    {k : String} (v : α) (h : q.1 ≠ k) :
    alistInsert (q :: l) k v = q :: alistInsert l k v := by
  simp [alistInsert, h]

theorem alistGet_insert_self {α : Type} (d : List (String × α)) (k : String) (v : α) :
    alistGet (alistInsert d k v) k = some v := by
  induction d with
  | nil => simp [alistInsert, alistGet_cons]
  | cons p rest ih =>
    by_cases h : p.1 = k
    · rw [alistInsert_cons_eq v h, alistGet_cons]
      simp
    · rw [alistInsert_cons_ne v h, alistGet_cons, if_neg h]
      exact ih

theorem alistGet_insert_ne {α : Type} (d : List (String × α)) {k k' : String} (v : α)
    (h : k' ≠ k) : alistGet (alistInsert d k v) k' = alistGet d k' := by
  induction d with
  | nil =>
    rw [show alistInsert ([] : List (String × α)) k v = [(k, v)] from rfl, alistGet_cons,
      if_neg (fun hh : (k, v).1 = k' => h hh.symm)]
  | cons p rest ih =>
    by_cases hp : p.1 = k
    · rw [alistInsert_cons_eq v hp, alistGet_cons, alistGet_cons]
      rw [if_neg (fun hh : k = k' => h hh.symm), if_neg (fun hh : p.1 = k' => h (hp ▸ hh).symm)]
    · rw [alistInsert_cons_ne v hp, alistGet_cons, alistGet_cons, ih]

theorem mem_keys_insert {α : Type} (d : List (String × α)) (k x : String) (v : α) :
    x ∈ (alistInsert d k v).map Prod.fst ↔ x ∈ d.map Prod.fst ∨ x = k := by
  induction d with
  | nil => simp [alistInsert]
  | cons p rest ih =>
    by_cases hp : p.1 = k
    · rw [alistInsert_cons_eq v hp]
      simp only [List.map_cons, List.mem_cons, hp]
      tauto
    · rw [alistInsert_cons_ne v hp]
      simp only [List.map_cons, List.mem_cons, ih]
      tauto

theorem nodupKeys_insert {α : Type} (d : List (String × α)) (k : String) (v : α)
    (h : (d.map Prod.fst).Nodup) : ((alistInsert d k v).map Prod.fst).Nodup := by
  induction d with
  | nil => simp [alistInsert]
  | cons p rest ih =>
    simp only [List.map_cons, List.nodup_cons] at h
    by_cases hp : p.1 = k
    · rw [alistInsert_cons_eq v hp]
      simp only [List.map_cons, List.nodup_cons]
      exact ⟨hp ▸ h.1, h.2⟩
    · rw [alistInsert_cons_ne v hp]
      simp only [List.map_cons, List.nodup_cons]
      refine ⟨?_, ih h.2⟩
      rw [mem_keys_insert]
      rintro (hm | hm)
      · exact h.1 hm
      · exact hp hm

theorem nodupKeys_foldl_insert {α : Type} (ws : List (String × α)) (d : List (String × α))
    (h : (d.map Prod.fst).Nodup) :
    ((ws.foldl (fun acc w => alistInsert acc w.1 w.2) d).map Prod.fst).Nodup := by
  induction ws generalizing d with
  | nil => exact h
  | cons w rest ih => exact ih _ (nodupKeys_insert d w.1 w.2 h)

theorem alistGet_foldl_insert {α : Type} (ws : List (String × α)) (d : List (String × α))
    (k : String) :
    alistGet (ws.foldl (fun acc w => alistInsert acc w.1 w.2) d) k
      = match ws.reverse.find? (fun w => w.1 == k) with
        | some w => some w.2
        | none => alistGet d k := by
  induction ws generalizing d with
  | nil => simp
  | cons w rest ih =>
    simp only [List.foldl_cons, List.reverse_cons, List.find?_append]
    rw [ih]
    cases hrest : rest.reverse.find? (fun w => w.1 == k) with
    | some w' => simp [Option.or]
    | none =>
      by_cases hw : w.1 = k
      · subst hw
        simp [Option.or, List.find?, alistGet_insert_self]
      · simp [Option.or, List.find?, beq_ne hw, alistGet_insert_ne d w.2 (fun hh => hw hh.symm)]

theorem find?_reverse_of_nodupKeys {α : Type} {l : List (String × α)}
    (h : (l.map Prod.fst).Nodup) (k : String) :
    l.reverse.find? (fun w => w.1 == k) = l.find? (fun w => w.1 == k) := by
  induction l with
  | nil => rfl
  | cons p rest ih =>
    simp only [List.map_cons, List.nodup_cons] at h
    simp only [List.reverse_cons, List.find?_append, ih h.2]
    by_cases hp : p.1 = k
    · have hnone : rest.find? (fun w => w.1 == k) = none := by
        rw [List.find?_eq_none]
        intro x hx hbeq
        have hxk : x.1 = k := by simpa [beq_iff_eq] using hbeq
        exact h.1 (hp ▸ hxk ▸ List.mem_map_of_mem Prod.fst hx)
      simp [hnone, Option.or, List.find?, hp]
    · have hcons : List.find? (fun w => w.1 == k) (p :: rest) = rest.find? (fun w => w.1 == k) :=
        List.find?_cons_of_neg _ (by simp [beq_iff_eq, hp])
      have hsingle : List.find? (fun w => w.1 == k) [p] = none := by
        simp [List.find?, beq_ne hp]
      rw [hsingle, hcons, Option.or_none]

theorem alistGet_eq_find? {α : Type} (d : List (String × α)) (k : String) :
    alistGet d k = (d.find? (fun w => w.1 == k)).map (·.2) := rfl

theorem alistGet_some_mem {α : Type} {d : List (String × α)} {k : String} {v : α}
    (h : alistGet d k = some v) : (k, v) ∈ d := by
  unfold alistGet at h
  cases hf : d.find? (fun p => p.1 == k) with
  | none => rw [hf] at h; exact absurd h (by simp)
  | some w =>
    rw [hf] at h
    have hk : w.1 = k := by simpa [beq_iff_eq] using List.find?_some hf
    have hv : w.2 = v := by simpa using h
    have hw : (k, v) = w := by
      obtain ⟨w1, w2⟩ := w
      simp_all
    exact hw ▸ List.mem_of_find?_eq_some hf

/-! ## Inversion lemmas and claim C5 -/

theorem map_item_inverse_eq_foldl (mi : List (String × String)) (d : List (String × String)) :
    mi.foldl
        (fun inverse kv => (pySplit kv.2 ',').foldl (fun inv v => alistInsert inv v kv.1) inverse)
        d
      = (invWrites mi).foldl (fun acc w => alistInsert acc w.1 w.2) d := by
  induction mi generalizing d with
  | nil => rfl
  | cons kv rest ih =>
    simp only [List.foldl_cons, invWrites, List.foldl_append, List.foldl_map]
    exact ih _

theorem map_item_inverse_eq (mi : List (String × String)) :
    map_item_inverse mi = (invWrites mi).foldl (fun acc w => alistInsert acc w.1 w.2) [] :=
  map_item_inverse_eq_foldl mi []

theorem nodupKeys_map_item_inverse (mi : List (String × String)) :
    ((map_item_inverse mi).map Prod.fst).Nodup := by
  rw [map_item_inverse_eq]
  exact nodupKeys_foldl_insert _ _ (by simp)

theorem mem_invWrites {mi : List (String × String)} {w : String × String} :
    w ∈ invWrites mi ↔ ∃ kv ∈ mi, w.2 = kv.1 ∧ w.1 ∈ pySplit kv.2 ',' := by
  induction mi with
  | nil => simp [invWrites]
  | cons kv rest ih =>
    simp only [invWrites, List.mem_append, List.mem_map, ih, List.mem_cons]
    constructor
    · rintro (⟨v, hv, rfl⟩ | ⟨kv2, hkv2, h2, h1⟩)
      · exact ⟨kv, Or.inl rfl, rfl, hv⟩
      · exact ⟨kv2, Or.inr hkv2, h2, h1⟩
    · rintro ⟨kv2, hkv2 | hkv2, h2, h1⟩
      · subst hkv2
        exact Or.inl ⟨w.1, h1, by rw [← h2]⟩
      · exact Or.inr ⟨kv2, hkv2, h2, h1⟩

/-- Claim C5: inverting the field map registers every comma-separated piece
of an entry's value as resolving to that entry's key, and the registered key
is precisely the one of the LAST write for that piece (last write wins when
a piece occurs under several entries); consequently every listed piece is
mapped by the inverse lookup to the key of some entry that lists it. -/
theorem mapping_inversion_last_write_wins (mi : List (String × String)) (a : String) :
    alistGet (map_item_inverse mi) a
        = ((invWrites mi).reverse.find? (fun w => w.1 == a)).map (fun w => w.2)
    ∧ (∀ k al, (k, al) ∈ mi → a ∈ pySplit al ',' →
        ∃ k' al', alistGet (map_item_inverse mi) a = some k'
          ∧ (k', al') ∈ mi ∧ a ∈ pySplit al' ',') := by
  have hmain : alistGet (map_item_inverse mi) a
      = ((invWrites mi).reverse.find? (fun w => w.1 == a)).map (fun w => w.2) := by
    rw [map_item_inverse_eq, alistGet_foldl_insert]
    cases h : (invWrites mi).reverse.find? (fun w => w.1 == a) with
    | some w => simp
    | none => simp [alistGet]
  refine ⟨hmain, ?_⟩
  intro k al hmem hsplit
  have hw : (a, k) ∈ invWrites mi := mem_invWrites.mpr ⟨(k, al), hmem, rfl, hsplit⟩
  have hsome : ((invWrites mi).reverse.find? (fun w => w.1 == a)).isSome :=
    List.find?_isSome.mpr ⟨(a, k), List.mem_reverse.mpr hw, by simp⟩
  obtain ⟨w, hwfind⟩ := Option.isSome_iff_exists.mp hsome
  have hwa : w.1 = a := by simpa [beq_iff_eq] using List.find?_some hwfind
  have hwmem : w ∈ invWrites mi := List.mem_reverse.mp (List.mem_of_find?_eq_some hwfind)
  obtain ⟨kv, hkv, hw2, hw1⟩ := mem_invWrites.mp hwmem
  refine ⟨w.2, kv.2, ?_, ?_, hwa ▸ hw1⟩
  · rw [hmain, hwfind]
    rfl
  · rw [hw2]
    exact hkv

/-- Witness for claim C5 at a concrete field map in which the piece `b` is
listed under both entries: the inverse lookup resolves `a` and `b`, and `b`
resolves to the key of the later entry. -/
theorem mapping_inversion_witness :
    (∃ k' al', alistGet (map_item_inverse [("src1", "a,b"), ("src2", "b,c")]) "b" = some k'
      ∧ (k', al') ∈ [("src1", "a,b"), ("src2", "b,c")] ∧ "b" ∈ pySplit al' ',')
    ∧ alistGet (map_item_inverse [("src1", "a,b"), ("src2", "b,c")]) "b" = some "src2"
    ∧ alistGet (map_item_inverse [("src1", "a,b"), ("src2", "b,c")]) "a" = some "src1" := by
  refine ⟨(mapping_inversion_last_write_wins _ "b").2 "src1" "a,b" (by decide) (by decide),
    ?_, ?_⟩
  · exact ((mapping_inversion_last_write_wins [("src1", "a,b"), ("src2", "b,c")]) "b").1.trans
      (by decide)
  · exact ((mapping_inversion_last_write_wins [("src1", "a,b"), ("src2", "b,c")]) "a").1.trans
      (by decide)

/-! ## Claim C2: the date normalizer -/

/-- Claim C2: `parse_date` maps the sentinel `0000-00-00 00:00:00` to the
fixed fallback timestamp 1900-01-01 00:00:00 (made timezone-aware) with
validity flag `false`; any other string that parses in the
`YYYY-MM-DD HH:MM:SS` format (spaces joined with `T`, then `strptime`)
yields the parsed timezone-aware timestamp with validity flag `true`; any
other string makes `parse_date` fail with the date-format `ValueError`,
which propagates (there is no recovery branch). -/
theorem parse_date_spec (s : String) :
    parse_date (some s) =
      if s = "0000-00-00 00:00:00" then
        .ok (make_aware ⟨1900, 1, 1, 0, 0, 0⟩, false)
      else
        match strptimeYmdTHMS (pyJoin "T" (pySplit s ' ')) with
        | some d => .ok (make_aware d, true)
        | none => .error .valueError := by
  by_cases h : s = "0000-00-00 00:00:00"
  · subst h
    decide
  · rw [if_neg h]
    unfold parse_date
    simp only [beq_ne h, Bool.false_eq_true, if_false]

/-! ## Claim C3: the slug normalizer -/

theorem mem_collapseSep {c : Char} :
    ∀ {b : Bool} {l : List Char}, c ∈ collapseSep b l →
      c = '-' ∨ (c ∈ l ∧ isSpaceChar c = false ∧ c ≠ '-') := by
  intro b l
  induction l generalizing b with
  | nil => intro h; exact absurd h (by simp [collapseSep])
  | cons d rest ih =>
    intro h
    by_cases hd : isSpaceChar d || d == '-'
    · rw [collapseSep, if_pos hd] at h
      by_cases hb : b
      · subst hb
        rw [if_pos rfl] at h
        rcases ih h with h1 | ⟨h1, h2⟩
        · exact Or.inl h1
        · exact Or.inr ⟨List.mem_cons_of_mem d h1, h2⟩
      · rw [Bool.not_eq_true] at hb
        subst hb
        rw [if_neg (by simp)] at h
        rcases List.mem_cons.mp h with h1 | h1
        · exact Or.inl h1
        · rcases ih h1 with h2 | ⟨h2, h3⟩
          · exact Or.inl h2
          · exact Or.inr ⟨List.mem_cons_of_mem d h2, h3⟩
    · rw [collapseSep, if_neg hd] at h
      simp only [Bool.or_eq_true, not_or, Bool.not_eq_true, beq_eq_false_iff_ne] at hd
      rcases List.mem_cons.mp h with h1 | h1
      · subst h1
        exact Or.inr ⟨List.mem_cons_self c rest, hd.1, hd.2⟩
      · rcases ih h1 with h2 | ⟨h2, h3⟩
        · exact Or.inl h2
        · exact Or.inr ⟨List.mem_cons_of_mem d h2, h3⟩

theorem mem_stripDashUnderscore {c : Char} {l : List Char}
    (h : c ∈ stripDashUnderscore l) : c ∈ l := by
  unfold stripDashUnderscore at h
  rw [List.mem_reverse] at h
  have h1 := (List.dropWhile_sublist _).subset h
  rw [List.mem_reverse] at h1
  exact (List.dropWhile_sublist _).subset h1

/-- Every character of a `slugify` output is identifier-safe. -/
theorem slugify_chars (s : String) : ∀ c ∈ (slugify s).data, isSlugSafeChar c = true := by
  intro c hc
  unfold slugify at hc
  have h1 : c ∈ collapseSep false
      ((s.data.map Char.toLower).filter (fun c => isWordChar c || isSpaceChar c || c == '-')) :=
    mem_stripDashUnderscore hc
  rcases mem_collapseSep h1 with h | ⟨hmem, hsp, _hne⟩
  · simp [isSlugSafeChar, h]
  · have hkeep := (List.mem_filter.mp hmem).2
    simp only [Bool.or_eq_true, hsp] at hkeep
    rcases hkeep with (hw | hfalse) | hdash
    · simp only [isWordChar, Bool.or_eq_true] at hw
      rcases hw with hw | hw <;> simp [isSlugSafeChar, hw]
    · exact absurd hfalse (by simp)
    · simp [isSlugSafeChar, hdash]

/-- Claim C3: `parse_slug` derives the slug from the title with outcome
`"blank slug"` when the raw slug is empty or absent; returns a non-empty raw
slug unchanged with outcome `"OK"` when slugification leaves it unchanged;
otherwise returns the slugified value with the outcome overridden to
`"illegal chars found"`; and in every case its slug consists only of
identifier-safe characters (it is total, so it never fails). -/
theorem parse_slug_spec (value title : Option String) :
    (parse_slug value title =
      if truthy value = false then (slugify (pyStr title), "blank slug")
      else if slugify (pyStr value) = pyStr value then (pyStr value, "OK")
      else (slugify (pyStr value), "illegal chars found"))
    ∧ ∀ c ∈ (parse_slug value title).1.data, isSlugSafeChar c = true := by
  constructor
  · unfold parse_slug
    by_cases hv : truthy value
    · by_cases hs : slugify (pyStr value) = pyStr value
      · simp [hv, hs]
      · simp [hv, hs, bne_iff_ne]
    · rw [Bool.not_eq_true] at hv
      simp [hv]
  · intro c hc
    have hcase : (parse_slug value title).1 = slugify (pyStr value)
        ∨ (parse_slug value title).1 = slugify (pyStr title) := by
      unfold parse_slug
      by_cases hv : truthy value <;> simp [hv]
    rcases hcase with h | h
    · exact slugify_chars (pyStr value) c (h ▸ hc)
    · exact slugify_chars (pyStr title) c (h ▸ hc)

/-- Witness for claim C3: the three spec examples — slug derivation from the
title, pass-through of an already-valid slug, and repair of an illegal slug —
plus an identifier-safety instance. -/
theorem parse_slug_witness :
    parse_slug none (some "Hello World!") = ("hello-world", "blank slug")
    ∧ parse_slug (some "") (some "Hello World!") = ("hello-world", "blank slug")
    ∧ parse_slug (some "already-valid-slug") (some "t") = ("already-valid-slug", "OK")
    ∧ parse_slug (some "Bad Slug!") (some "t") = ("bad-slug", "illegal chars found")
    ∧ isSlugSafeChar 'b' = true := by
  refine ⟨?_, ?_, ?_, ?_, ?_⟩
  · exact ((parse_slug_spec none (some "Hello World!")).1).trans (by decide)
  · exact ((parse_slug_spec (some "") (some "Hello World!")).1).trans (by decide)
  · exact ((parse_slug_spec (some "already-valid-slug") (some "t")).1).trans (by decide)
  · exact ((parse_slug_spec (some "Bad Slug!") (some "t")).1).trans (by decide)
  · exact (parse_slug_spec (some "Bad Slug!") (some "t")).2 'b' (by decide)

/-! ## Claim C9: the content pipeline order -/

/-- Claim C9: for every content value, `parse_stream_fields` applies the
external stages in exactly the order line-break conversion, style fixing,
bleach sanitization, block building — so style fixing runs strictly before
sanitization — and returns the triple (serialized blocks, intermediate
processed text, block sequence); instantiating the stages with tagging
functions exhibits the order concretely in the intermediate text. -/
theorem parse_stream_fields_spec {β : Type} (E : Externals β) (value : Option String) :
    (parse_stream_fields E value =
      (E.dumps (E.build (E.bleach_clean (E.fix_styles (E.linebreaks_wp (pyStr value))))),
       E.bleach_clean (E.fix_styles (E.linebreaks_wp (pyStr value))),
       E.build (E.bleach_clean (E.fix_styles (E.linebreaks_wp (pyStr value))))))
    ∧ (parse_stream_fields tagExternals (some "x")).2.1 = "x<lb><fix><clean>"
    ∧ (parse_stream_fields tagExternals (some "x")).2.2 = ["x<lb><fix><clean><build>"] :=
  ⟨rfl, by decide, by decide⟩

/-! ## Claim C7: create and update reconciliation -/

theorem alistGet_applySetFields_of_nodup {fs vs : PageDict} {k : String} {v : PValue}
    (hnodup : (vs.map Prod.fst).Nodup) (hv : alistGet vs k = some v) :
    alistGet (applySetFields fs vs) k = some v := by
  unfold applySetFields
  rw [alistGet_foldl_insert vs fs k, find?_reverse_of_nodupKeys hnodup]
  rw [alistGet_eq_find?] at hv
  cases hf : vs.find? (fun w => w.1 == k) with
  | none => rw [hf] at hv; exact absurd hv (by simp)
  | some w =>
    rw [hf] at hv
    simpa using hv

/-- Claim C7: with no existing record, `create_page` builds the new page from
all transformed fields, sets `live` to false exactly for a `draft` source
status, attaches the page under the parent (`addChild`), and returns outcome
`"created"`; with an existing record, `update_page` overwrites every
transformed field on it, saves it, unpublishes it if and only if the status
is `draft` (and never assigns the `live` flag directly), and returns outcome
`"updated"`. -/
theorem create_update_page_spec (values : PageDict) (status : Option String) (page : PageObj)
    (hnodup : (values.map Prod.fst).Nodup) :
    ((create_page values status).1.fields = values
      ∧ (create_page values status).1.live = (if status = some "draft" then false else true)
      ∧ (create_page values status).2.1 = "created"
      ∧ (create_page values status).2.2
          = [PageOp.setLive (if status = some "draft" then false else true), PageOp.addChild])
    ∧ ((update_page page values status).2.1 = "updated"
      ∧ (∀ k v, alistGet values k = some v →
          alistGet (update_page page values status).1.fields k = some v)
      ∧ (update_page page values status).1.live
          = (if status = some "draft" then false else page.live)
      ∧ PageOp.save ∈ (update_page page values status).2.2
      ∧ (PageOp.unpublish ∈ (update_page page values status).2.2 ↔ status = some "draft")
      ∧ (∀ b, PageOp.setLive b ∉ (update_page page values status).2.2)) := by
  by_cases hd : status = some "draft"
  · subst hd
    refine ⟨⟨rfl, by simp [create_page], rfl, by simp [create_page]⟩,
      by simp [update_page], ?_, by simp [update_page], by simp [update_page],
      by simp [update_page], ?_⟩
    · intro k v hv
      simpa [update_page] using alistGet_applySetFields_of_nodup hnodup hv
    · intro b
      simp [update_page, List.mem_append, List.mem_map]
  · have hbeq : (status == some "draft") = false := beq_eq_false_iff_ne.mpr hd
    refine ⟨⟨rfl, by simp [create_page, hbeq, hd], rfl, by simp [create_page, hbeq, hd]⟩,
      by simp [update_page, hbeq], ?_, by simp [update_page, hbeq, hd],
      by simp [update_page, hbeq, List.mem_append], ?_, ?_⟩
    · intro k v hv
      simpa [update_page, hbeq] using alistGet_applySetFields_of_nodup hnodup hv
    · simp [update_page, hbeq, List.mem_append, List.mem_map, hd]
    · intro b
      simp [update_page, hbeq, List.mem_append, List.mem_map]

/-- Witness for claim C7 at concrete inputs: a draft creation is not live, a
draft update keeps the overwritten field and traces an `unpublish`, and a
published update does not trace an `unpublish`. -/
theorem create_update_page_witness :
    (create_page [("a", PValue.str "x")] (some "draft")).1.live = false
    ∧ alistGet (update_page ⟨[("b", PValue.str "y")], true⟩
        [("a", PValue.str "x")] (some "draft")).1.fields "a" = some (PValue.str "x")
    ∧ PageOp.unpublish ∈ (update_page ⟨[("b", PValue.str "y")], true⟩
        [("a", PValue.str "x")] (some "draft")).2.2
    ∧ PageOp.unpublish ∉ (update_page ⟨[("b", PValue.str "y")], true⟩
        [("a", PValue.str "x")] (some "publish")).2.2 := by
  have h1 := create_update_page_spec [("a", PValue.str "x")] (some "draft")
    ⟨[("b", PValue.str "y")], true⟩ (by decide)
  have h2 := create_update_page_spec [("a", PValue.str "x")] (some "publish")
    ⟨[("b", PValue.str "y")], true⟩ (by decide)
  refine ⟨h1.1.2.1.trans (by decide), h1.2.2.1 "a" (PValue.str "x") (by decide), ?_, ?_⟩
  · exact h1.2.2.2.2.2.1.mpr rfl
  · intro hmem
    exact absurd (h2.2.2.2.2.2.1.mp hmem) (by decide)

/-! ## Lemmas about the loops of `get_values` -/

theorem copyFields_frame (item : RawItem) :
    ∀ (pairs : List (String × String)) (acc pv : PageDict) (k : String),
      copyFields item pairs acc = .ok pv → k ∉ pairs.map Prod.fst →
      alistGet pv k = alistGet acc k := by
  intro pairs
  induction pairs with
  | nil =>
    intro acc pv k h _
    cases h
    rfl
  | cons p rest ih =>
    obtain ⟨f, mp⟩ := p
    intro acc pv k h hk
    simp only [List.map_cons, List.mem_cons, not_or] at hk
    cases hg : alistIndex item mp with
    | error e => rw [copyFields, hg] at h; cases h
    | ok v =>
      rw [copyFields, hg] at h
      rw [ih _ _ _ h hk.2, alistGet_insert_ne _ _ hk.1]

theorem copyFields_lookup (item : RawItem) :
    ∀ (pairs : List (String × String)) (acc pv : PageDict) (k mapped : String),
      (pairs.map Prod.fst).Nodup → copyFields item pairs acc = .ok pv →
      alistGet pairs k = some mapped →
      ∃ v, alistGet item mapped = some v ∧ alistGet pv k = some (PValue.str v) := by
  intro pairs
  induction pairs with
  | nil =>
    intro acc pv k mapped _ _ hget
    exact absurd hget (by simp [alistGet])
  | cons p rest ih =>
    obtain ⟨f, mp⟩ := p
    intro acc pv k mapped hnodup h hget
    simp only [List.map_cons, List.nodup_cons] at hnodup
    rw [alistGet_cons] at hget
    by_cases hf : f = k
    · rw [if_pos hf] at hget
      cases hget
      cases hg : alistIndex item mp with
      | error e => rw [copyFields, hg] at h; cases h
      | ok v =>
        rw [copyFields, hg] at h
        refine ⟨v, ?_, ?_⟩
        · unfold alistIndex at hg
          cases hd : alistGet item mp with
          | none => rw [hd] at hg; cases hg
          | some w => rw [hd] at hg; cases hg; rfl
        · rw [copyFields_frame item rest _ _ k h (hf ▸ hnodup.1),
            ← hf, alistGet_insert_self]
    · rw [if_neg hf] at hget
      cases hg : alistIndex item mp with
      | error e => rw [copyFields, hg] at h; cases h
      | ok v =>
        rw [copyFields, hg] at h
        exact ih _ _ k mapped hnodup.2 h hget

theorem copyFields_missing (item : RawItem) :
    ∀ (pairs : List (String × String)) (acc : PageDict),
      (∃ fm ∈ pairs, alistGet item fm.2 = none) →
      ∃ k, alistGet item k = none ∧ copyFields item pairs acc = .error (.keyError k) := by
  intro pairs
  induction pairs with
  | nil =>
    intro acc h
    obtain ⟨fm, hfm, _⟩ := h
    exact absurd hfm (List.not_mem_nil fm)
  | cons p rest ih =>
    obtain ⟨f, mp⟩ := p
    intro acc h
    cases hg : alistGet item mp with
    | none =>
      refine ⟨mp, hg, ?_⟩
      rw [copyFields, show alistIndex item mp = .error (.keyError mp) by
        unfold alistIndex; rw [hg]]
    | some v =>
      obtain ⟨fm, hfm, hnone⟩ := h
      rcases List.mem_cons.mp hfm with rfl | hfm2
      · exact absurd hnone (by rw [hg]; simp)
      · obtain ⟨k, hk1, hk2⟩ := ih (alistInsert acc f (PValue.str v)) ⟨fm, hfm2, hnone⟩
        refine ⟨k, hk1, ?_⟩
        rw [copyFields, show alistIndex item mp = .ok v by unfold alistIndex; rw [hg]]
        exact hk2

theorem copyFields_nodupKeys (item : RawItem) :
    ∀ (pairs : List (String × String)) (acc pv : PageDict),
      copyFields item pairs acc = .ok pv → (acc.map Prod.fst).Nodup →
      (pv.map Prod.fst).Nodup := by
  intro pairs
  induction pairs with
  | nil =>
    intro acc pv h hacc
    cases h
    exact hacc
  | cons p rest ih =>
    obtain ⟨f, mp⟩ := p
    intro acc pv h hacc
    cases hg : alistIndex item mp with
    | error e => rw [copyFields, hg] at h; cases h
    | ok v =>
      rw [copyFields, hg] at h
      exact ih _ _ h (nodupKeys_insert _ _ _ hacc)

theorem streamLoop_frame {β : Type} (E : Externals β) (inverse : List (String × String))
    (item : RawItem) :
    ∀ (fields : List String) (acc : PageDict) (k : String),
      k ∉ fields → k ≠ "wp_processed_content" → k ≠ "wp_block_json" →
      alistGet (streamLoop E inverse item fields acc) k = alistGet acc k := by
  intro fields
  induction fields with
  | nil => intro acc k _ _ _; rfl
  | cons html rest ih =>
    intro acc k hk h1 h2
    simp only [List.mem_cons, not_or] at hk
    rw [streamLoop, ih _ _ hk.2 h1 h2, alistGet_insert_ne _ _ h2,
      alistGet_insert_ne _ _ h1, alistGet_insert_ne _ _ hk.1]

theorem streamLoop_nodupKeys {β : Type} (E : Externals β) (inverse : List (String × String))
    (item : RawItem) :
    ∀ (fields : List String) (acc : PageDict),
      (acc.map Prod.fst).Nodup →
      ((streamLoop E inverse item fields acc).map Prod.fst).Nodup := by
  intro fields
  induction fields with
  | nil => intro acc h; exact h
  | cons html rest ih =>
    intro acc h
    exact ih _ (nodupKeys_insert _ _ _ (nodupKeys_insert _ _ _ (nodupKeys_insert _ _ _ h)))

theorem parse_date_flag {raw : Option String} {aw : AwareDT} {flag : Bool}
    (h : parse_date raw = .ok (aw, flag)) :
    flag = !(decide (raw = some "0000-00-00 00:00:00")) := by
  cases raw with
  | none => exact absurd h (by simp [parse_date])
  | some v =>
    by_cases hv : v = "0000-00-00 00:00:00"
    · subst hv
      have hval : parse_date (some "0000-00-00 00:00:00")
          = .ok (make_aware ⟨1900, 1, 1, 0, 0, 0⟩, false) := by decide
      rw [hval] at h
      cases h
      decide
    · unfold parse_date at h
      simp only [beq_ne hv, Bool.false_eq_true, if_false] at h
      cases hm : strptimeYmdTHMS (pyJoin "T" (pySplit v ' ')) with
      | some d =>
        rw [hm] at h
        cases h
        simp [hv]
      | none => rw [hm] at h; cases h

theorem dateLoop_ok (inverse : List (String × String)) (item : RawItem) :
    ∀ (fields : List String) (acc pv : PageDict) (dv dvOut : List Bool) (k : String),
      dateLoop inverse item fields acc dv = .ok (pv, dvOut) →
      (dvOut = dv ++ fields.map (dateFlagOf inverse item)
        ∧ (k ∉ fields → alistGet pv k = alistGet acc k)
        ∧ ((acc.map Prod.fst).Nodup → (pv.map Prod.fst).Nodup)) := by
  intro fields
  induction fields with
  | nil =>
    intro acc pv dv dvOut k h
    cases h
    exact ⟨by simp, fun _ => rfl, fun hh => hh⟩
  | cons df rest ih =>
    intro acc pv dv dvOut k h
    cases hp : parse_date (alistGetOpt item (alistGet inverse df)) with
    | error e => rw [dateLoop, hp] at h; cases h
    | ok date =>
      rw [dateLoop, hp] at h
      obtain ⟨hflags, hframe, hnodup⟩ := ih _ _ _ _ k h
      refine ⟨?_, ?_, ?_⟩
      · have hdate : date.2 = dateFlagOf inverse item df := by
          exact @parse_date_flag (alistGetOpt item (alistGet inverse df))
            date.1 date.2 (by rw [hp])
        rw [hflags, hdate, List.map_cons]
        simp
      · intro hk
        simp only [List.mem_cons, not_or] at hk
        rw [hframe hk.2, alistGet_insert_ne _ _ hk.1]
      · intro hacc
        exact hnodup (nodupKeys_insert _ _ _ hacc)

theorem slugLoop_ok (inverse : List (String × String)) (item : RawItem) :
    ∀ (fields : List String) (acc : PageDict) (sc : PyVal) (k : String),
      ((slugLoop inverse item fields acc sc).2
          = (match fields.getLast? with
             | none => sc
             | some lf => PyVal.pyStr (parse_slug (alistGetOpt item (alistGet inverse lf))
                 (alistGet item "title")).2)
        ∧ (k ∉ fields → alistGet (slugLoop inverse item fields acc sc).1 k = alistGet acc k)
        ∧ ((acc.map Prod.fst).Nodup →
            ((slugLoop inverse item fields acc sc).1.map Prod.fst).Nodup)) := by
  intro fields
  induction fields with
  | nil =>
    intro acc sc k
    exact ⟨rfl, fun _ => rfl, fun hh => hh⟩
  | cons sf rest ih =>
    intro acc sc k
    refine ⟨?_, ?_, ?_⟩
    · rw [slugLoop]
      cases rest with
      | nil => exact (ih _ _ k).1
      | cons g rest2 =>
        rw [List.getLast?_cons_cons]
        exact (ih _ _ k).1
    · intro hk
      simp only [List.mem_cons, not_or] at hk
      rw [slugLoop, (ih _ _ k).2.1 hk.2, alistGet_insert_ne _ _ hk.1]
    · intro hacc
      rw [slugLoop]
      exact (ih _ _ k).2.2 (nodupKeys_insert _ _ _ hacc)

/-! ## Decomposing a successful `get_values` -/

theorem all_map_id (f : String → Bool) (l : List String) :
    (l.map f).all id = l.all f := by
  induction l with
  | nil => rfl
  | cons a rest ih => simp [ih]

theorem get_values_ok_elim {β : Type} {E : Externals β} {m : Mapping} {item : RawItem}
    {pv : PageDict} {dv : Bool} {sc : PyVal}
    (h : get_values E m item = .ok (pv, dv, sc)) :
    ∃ pv0 pv2 flags,
      copyFields item (map_item_inverse m.item) [] = .ok pv0
      ∧ dateLoop (map_item_inverse m.item) item (pySplit m.validate_date ',')
          (streamLoop E (map_item_inverse m.item) item (pySplit m.stream_fields ',') pv0) []
          = .ok (pv2, flags)
      ∧ pv = (slugLoop (map_item_inverse m.item) item (pySplit m.validate_slug ',') pv2
          (.pyBool false)).1
      ∧ dv = flags.all id
      ∧ sc = (slugLoop (map_item_inverse m.item) item (pySplit m.validate_slug ',') pv2
          (.pyBool false)).2 := by
  unfold get_values at h
  simp only [] at h
  split at h
  · exact absurd h (by simp)
  · rename_i pv0 heq
    split at h
    · exact absurd h (by simp)
    · rename_i pv2 flags heq2
      cases h
      exact ⟨pv0, pv2, flags, heq, heq2, rfl, rfl, rfl⟩

/-! ## Claim C8: date validity is the conjunction over all date fields -/

/-- Claim C8: when `get_values` succeeds, the returned date-validity flag is
the conjunction, over all configured date fields, of the per-field
validity — equivalently, it is `true` iff no date field's raw value was the
sentinel that triggers the fallback substitution. -/
theorem get_values_date_valid {β : Type} (E : Externals β) (m : Mapping) (item : RawItem)
    (pv : PageDict) (dv : Bool) (sc : PyVal)
    (h : get_values E m item = .ok (pv, dv, sc)) :
    dv = (pySplit m.validate_date ',').all (dateFlagOf (map_item_inverse m.item) item)
    ∧ (dv = true ↔ ∀ df ∈ pySplit m.validate_date ',',
        alistGetOpt item (alistGet (map_item_inverse m.item) df)
          ≠ some "0000-00-00 00:00:00") := by
  obtain ⟨pv0, pv2, flags, _hc, hd, _hpv, hdv, _hsc⟩ := get_values_ok_elim h
  have hflags := (dateLoop_ok _ item _ _ _ _ _ "" hd).1
  rw [List.nil_append] at hflags
  have hmain : dv = (pySplit m.validate_date ',').all
      (dateFlagOf (map_item_inverse m.item) item) := by
    rw [hdv, hflags, all_map_id]
  refine ⟨hmain, ?_⟩
  rw [hmain, List.all_eq_true]
  constructor
  · intro hall df hdf
    have := hall df hdf
    simpa [dateFlagOf] using this
  · intro hall df hdf
    simpa [dateFlagOf] using hall df hdf

/-- Witness for claim C8: with the modelled mapping, an item whose post date
is the sentinel yields a successful transformation whose date-validity flag
is `false`. -/
theorem get_values_date_valid_witness :
    ∃ pv sc, get_values idExternals wordpress_mapping exSentinelItem = .ok (pv, false, sc) := by
  have hok : ∃ pv dv sc,
      get_values idExternals wordpress_mapping exSentinelItem = .ok (pv, dv, sc) :=
    ⟨_, _, _, rfl⟩
  obtain ⟨pv, dv, sc, hgv⟩ := hok
  have h := (get_values_date_valid idExternals wordpress_mapping exSentinelItem pv dv sc hgv).1
  have hfalse : dv = false := by rw [h]; decide
  exact ⟨pv, sc, hfalse ▸ hgv⟩

/-! ## Claim C10: the slug outcome is the last slug field's outcome -/

/-- Claim C10: when `get_values` succeeds and the configured slug-field list
has last element `lf`, the returned slug outcome is exactly the outcome of
`parse_slug` on `lf` — each slug field overwrites `slug_changed`, so the
outcomes of all earlier slug fields are discarded (in contrast to the date
flags, which are all collected and conjoined, see the date-validity
theorem). -/
theorem get_values_last_slug {β : Type} (E : Externals β) (m : Mapping) (item : RawItem)
    (pv : PageDict) (dv : Bool) (sc : PyVal) (lf : String)
    (h : get_values E m item = .ok (pv, dv, sc))
    (hlast : (pySplit m.validate_slug ',').getLast? = some lf) :
    sc = PyVal.pyStr (parse_slug (alistGetOpt item (alistGet (map_item_inverse m.item) lf))
        (alistGet item "title")).2 := by
  obtain ⟨pv0, pv2, flags, _hc, _hd, _hpv, _hdv, hsc⟩ := get_values_ok_elim h
  have hloop := (slugLoop_ok (map_item_inverse m.item) item
    (pySplit m.validate_slug ',') pv2 (.pyBool false) "").1
  rw [hlast] at hloop
  rw [hsc, hloop]

/-- Witness for claim C10: with two configured slug fields whose outcomes
differ (`good-slug` is already clean, `Bad Slug!` needs repair), the
reported outcome is the second field's `"illegal chars found"`; the first
field's `"OK"` outcome is discarded. -/
theorem get_values_last_slug_witness :
    ∃ pv dv, get_values idExternals twoSlugMapping twoSlugItem
        = .ok (pv, dv, PyVal.pyStr "illegal chars found")
      ∧ (parse_slug (alistGetOpt twoSlugItem
          (alistGet (map_item_inverse twoSlugMapping.item) "slug"))
          (alistGet twoSlugItem "title")).2 = "OK" := by
  have hok : ∃ pv dv sc,
      get_values idExternals twoSlugMapping twoSlugItem = .ok (pv, dv, sc) :=
    ⟨_, _, _, rfl⟩
  obtain ⟨pv, dv, sc, hgv⟩ := hok
  have h := get_values_last_slug idExternals twoSlugMapping twoSlugItem pv dv sc
    "slug2" hgv (by decide)
  have hval : sc = PyVal.pyStr "illegal chars found" := by rw [h]; decide
  exact ⟨pv, dv, hval ▸ hgv, by decide⟩

/-! ## Claim C6: an unmatched source alias -/

/-- Counterexample to claim C6: with a field map whose single source alias
`wp:title` has no matching field in the (empty) record, `get_values` does
not succeed with an absent value — it fails with a `KeyError`, because the
field-copy loop reads the record with bracket access. -/
theorem get_values_missing_alias_counterexample :
    get_values idExternals missingMapping []
      = .error (.keyError "wp:title") := by decide

/-- Claim C6 as amended: a target field whose resolved source alias has no
matching field in the record makes `get_values` fail with a `KeyError`
naming a missing alias (bracket access in the field-copy loop), rather than
producing an absent value; only the slug normalizer treats an absent raw
value as recoverable, deriving the slug from the title. -/
theorem get_values_missing_alias {β : Type} (E : Externals β) (m : Mapping) (item : RawItem)
    (hmiss : ∃ fm ∈ map_item_inverse m.item, alistGet item fm.2 = none) :
    (∃ k, alistGet item k = none ∧ get_values E m item = .error (.keyError k))
    ∧ ∀ t, parse_slug none t = (slugify (pyStr t), "blank slug") := by
  constructor
  · obtain ⟨k, hk1, hk2⟩ := copyFields_missing item (map_item_inverse m.item) [] hmiss
    refine ⟨k, hk1, ?_⟩
    unfold get_values
    simp only []
    rw [hk2]
  · intro t
    rfl

/-- Witness for the amended claim C6 at the concrete one-alias mapping and
the empty record. -/
theorem get_values_missing_alias_witness :
    (∃ k, alistGet ([] : RawItem) k = none
      ∧ get_values idExternals missingMapping [] = .error (.keyError k))
    ∧ parse_slug none (some "A Title") = ("a-title", "blank slug") := by
  have h := get_values_missing_alias idExternals missingMapping []
    ⟨("title", "wp:title"), by decide, by decide⟩
  exact ⟨h.1, (h.2 (some "A Title")).trans (by decide)⟩

/-! ## The identity field through `get_values` -/

theorem get_values_wp_post_id {β : Type} {E : Externals β} {m : Mapping} {item : RawItem}
    {pv : PageDict} {dv : Bool} {sc : PyVal}
    (Him : IdentityMapped m) (h : get_values E m item = .ok (pv, dv, sc)) :
    ∃ v, alistGet item "wp:post_id" = some v
      ∧ alistGet pv "wp_post_id" = some (PValue.str v) := by
  obtain ⟨Hwp, Hnd, Hns, Hnst⟩ := Him
  obtain ⟨pv0, pv2, flags, hc, hd, hpv, _, _⟩ := get_values_ok_elim h
  obtain ⟨v, hv, hlook⟩ := copyFields_lookup item (map_item_inverse m.item) [] pv0
    "wp_post_id" "wp:post_id" (nodupKeys_map_item_inverse m.item) hc Hwp
  refine ⟨v, hv, ?_⟩
  rw [hpv, (slugLoop_ok _ _ _ _ _ "wp_post_id").2.1 Hns,
    (dateLoop_ok _ _ _ _ _ _ _ "wp_post_id" hd).2.1 Hnd,
    streamLoop_frame E _ item _ _ _ Hnst (by decide) (by decide)]
  exact hlook

theorem get_values_nodupKeys {β : Type} {E : Externals β} {m : Mapping} {item : RawItem}
    {pv : PageDict} {dv : Bool} {sc : PyVal}
    (h : get_values E m item = .ok (pv, dv, sc)) : (pv.map Prod.fst).Nodup := by
  obtain ⟨pv0, pv2, flags, hc, hd, hpv, _, _⟩ := get_values_ok_elim h
  rw [hpv]
  exact (slugLoop_ok _ _ _ _ _ "").2.2
    ((dateLoop_ok _ _ _ _ _ _ _ "" hd).2.2
      (streamLoop_nodupKeys _ _ _ _ _ (copyFields_nodupKeys item _ _ _ hc (by simp))))

/-! ## Store lemmas -/

theorem replaceFirst_length (pred : PageObj → Bool) (newObj : PageObj) :
    ∀ l : List PageObj, (replaceFirst pred newObj l).length = l.length := by
  intro l
  induction l with
  | nil => rfl
  | cons p rest ih =>
    by_cases hp : pred p
    · simp [replaceFirst, hp]
    · simp [replaceFirst, hp, ih]

theorem replaceFirst_mem_new (pred : PageObj → Bool) (newObj : PageObj) :
    ∀ l : List PageObj, (∃ q ∈ l, pred q = true) → newObj ∈ replaceFirst pred newObj l := by
  intro l
  induction l with
  | nil =>
    rintro ⟨q, hq, _⟩
    exact absurd hq (List.not_mem_nil q)
  | cons p rest ih =>
    rintro ⟨q, hq, hpred⟩
    by_cases hp : pred p
    · rw [replaceFirst, if_pos hp]
      exact List.mem_cons_self _ _
    · rw [replaceFirst, if_neg hp]
      rcases List.mem_cons.mp hq with rfl | hq2
      · exact absurd hpred hp
      · exact List.mem_cons_of_mem p (ih ⟨q, hq2, hpred⟩)

theorem replaceFirst_hasId {pred : PageObj → Bool} {newObj : PageObj} {pid0 : Option String}
    (hnew : pageWpPostId newObj = pid0)
    (hpred : ∀ q, pred q = true → pageWpPostId q = pid0) :
    ∀ (l : List PageObj) (pid : Option String),
      (∃ p ∈ l, pageWpPostId p = pid) →
      ∃ p ∈ replaceFirst pred newObj l, pageWpPostId p = pid := by
  intro l
  induction l with
  | nil =>
    rintro pid ⟨p, hp, _⟩
    exact absurd hp (List.not_mem_nil p)
  | cons q rest ih =>
    rintro pid ⟨p, hp, hpid⟩
    by_cases hq : pred q
    · rw [replaceFirst, if_pos hq]
      rcases List.mem_cons.mp hp with rfl | hp2
      · exact ⟨newObj, List.mem_cons_self _ _, by rw [hnew, ← hpred p hq, hpid]⟩
      · exact ⟨p, List.mem_cons_of_mem _ hp2, hpid⟩
    · rw [replaceFirst, if_neg hq]
      rcases List.mem_cons.mp hp with rfl | hp2
      · exact ⟨p, List.mem_cons_self _ _, hpid⟩
      · obtain ⟨p2, hp2m, hp2id⟩ := ih pid ⟨p, hp2, hpid⟩
        exact ⟨p2, List.mem_cons_of_mem _ hp2m, hp2id⟩

theorem storeFind_of_hasId {store : List PageObj} {pid : Option String}
    (h : hasId store pid) :
    ∃ p, storeFind store pid = some p ∧ pageWpPostId p = pid := by
  obtain ⟨q, hq, hid⟩ := h
  have hsome : (store.find? (fun p => pageWpPostId p == pid)).isSome :=
    List.find?_isSome.mpr ⟨q, hq, by simp [hid]⟩
  obtain ⟨p, hp⟩ := Option.isSome_iff_exists.mp hsome
  exact ⟨p, hp, by simpa [beq_iff_eq] using List.find?_some hp⟩

theorem update_page_fields (page : PageObj) (values : PageDict) (status : Option String) :
    (update_page page values status).1.fields = applySetFields page.fields values := by
  unfold update_page
  split <;> rfl

theorem update_page_wpPostId {page : PageObj} {values : PageDict} {status : Option String}
    {v : String} (hnodup : (values.map Prod.fst).Nodup)
    (hv : alistGet values "wp_post_id" = some (PValue.str v)) :
    pageWpPostId (update_page page values status).1 = some v := by
  unfold pageWpPostId
  rw [update_page_fields, alistGet_applySetFields_of_nodup hnodup hv]

theorem countP_not_eq {α : Type} (p : α → Bool) (l : List α) :
    l.countP (fun a => !p a) = l.length - l.countP p := by
  induction l with
  | nil => rfl
  | cons a rest ih =>
    rw [List.countP_cons, List.countP_cons, List.length_cons, ih]
    have hle : rest.countP p ≤ rest.length := List.countP_le_length p
    by_cases hp : p a
    · simp only [hp, Bool.not_true, Bool.false_eq_true, if_false, if_true]
      omega
    · rw [Bool.not_eq_true] at hp
      simp only [hp, Bool.not_false, Bool.false_eq_true, if_false, if_true]
      omega

/-! ## The item-loop step -/

theorem processItem_spec {β : Type} (E : Externals β) (m : Mapping) (cfg : RunConfig)
    (st : RunState) (item : RawItem)
    (Hok : eligible cfg item = true → (get_values E m item).isOk = true) :
    ∃ st', processItem E m cfg st item = .ok st'
      ∧ st'.processed = st.processed + 1
      ∧ (eligible cfg item = true →
          st'.imported = st.imported + 1 ∧ st'.skipped = st.skipped
          ∧ ∃ pv dv sc entry, get_values E m item = .ok (pv, dv, sc)
              ∧ st'.logged = st.logged ++ [(item, entry)]
              ∧ (entry.result = "created" ∨ entry.result = "updated")
              ∧ entry.datecheck = .pyBool dv ∧ entry.slugcheck = sc)
      ∧ (eligible cfg item = false →
          st'.imported = st.imported ∧ st'.skipped = st.skipped + 1
          ∧ st'.logged = st.logged ++ [(item, skipEntry)] ∧ st'.store = st.store) := by
  by_cases he : eligible cfg item
  · cases hgv : get_values E m item with
    | error e =>
      have := Hok he
      rw [hgv] at this
      exact absurd this (by simp [Except.isOk, Except.toBool])
    | ok triple =>
      obtain ⟨pv, dv, sc⟩ := triple
      cases hf : storeFind st.store (alistGet item "wp:post_id") with
      | some page =>
        have hstep : processItem E m cfg st item = .ok
            { store := replaceFirst (fun q => pageWpPostId q == alistGet item "wp:post_id")
                (update_page page pv (alistGet item "wp:status")).1 st.store,
              processed := st.processed + 1, imported := st.imported + 1,
              skipped := st.skipped,
              logged := st.logged ++ [(item, ⟨"updated", "existed", .pyBool dv, sc⟩)] } := by
          simp only [processItem, he, hgv, hf, if_true]
        refine ⟨_, hstep, rfl, ?_, ?_⟩
        · intro _
          exact ⟨rfl, rfl, pv, dv, sc, ⟨"updated", "existed", .pyBool dv, sc⟩,
            rfl, rfl, Or.inr rfl, rfl, rfl⟩
        · intro hfalse
          rw [he] at hfalse
          cases hfalse
      | none =>
        have hstep : processItem E m cfg st item = .ok
            { store := st.store ++ [(create_page pv (alistGet item "wp:status")).1],
              processed := st.processed + 1, imported := st.imported + 1,
              skipped := st.skipped,
              logged := st.logged ++ [(item, ⟨"created", "new", .pyBool dv, sc⟩)] } := by
          simp only [processItem, he, hgv, hf, if_true]
        refine ⟨_, hstep, rfl, ?_, ?_⟩
        · intro _
          exact ⟨rfl, rfl, pv, dv, sc, ⟨"created", "new", .pyBool dv, sc⟩,
            rfl, rfl, Or.inl rfl, rfl, rfl⟩
        · intro hfalse
          rw [he] at hfalse
          cases hfalse
  · rw [Bool.not_eq_true] at he
    have hstep : processItem E m cfg st item = .ok
        { store := st.store, processed := st.processed + 1, imported := st.imported,
          skipped := st.skipped + 1, logged := st.logged ++ [(item, skipEntry)] } := by
      simp only [processItem, he, Bool.false_eq_true, if_false]
    refine ⟨_, hstep, rfl, ?_, ?_⟩
    · intro htrue
      rw [he] at htrue
      cases htrue
    · intro _
      exact ⟨rfl, rfl, rfl, rfl⟩

/-! ## The run loop: totality, counters, audit -/

/-- The audit relation claim C4 asserts between a document item and its log
entry: the entry wraps the item itself; an ineligible item gets exactly the
skip entry (reason `no title or status match`, empty validity fields); an
eligible item is transformed (its `get_values` result feeds the validity
fields of the entry) and reconciled (outcome `created` or `updated`). -/
def auditOk {β : Type} (E : Externals β) (m : Mapping) (cfg : RunConfig)
    (it : RawItem) (e : RawItem × LogEntry) : Prop :=
  e.1 = it
  ∧ (eligible cfg it = false → e.2 = skipEntry)
  ∧ (eligible cfg it = true →
      (e.2.result = "created" ∨ e.2.result = "updated")
      ∧ ∃ pv dv sc, get_values E m it = .ok (pv, dv, sc)
          ∧ e.2.datecheck = .pyBool dv ∧ e.2.slugcheck = sc)

theorem runItems_spec {β : Type} (E : Externals β) (m : Mapping) (cfg : RunConfig) :
    ∀ (items : List RawItem) (st : RunState),
      (∀ it ∈ items, eligible cfg it = true → (get_values E m it).isOk = true) →
      ∃ st', runItems E m cfg st items = .ok st'
        ∧ st'.processed = st.processed + items.length
        ∧ st'.imported = st.imported + items.countP (fun it => eligible cfg it)
        ∧ st'.skipped = st.skipped + items.countP (fun it => !eligible cfg it)
        ∧ ∃ news, st'.logged = st.logged ++ news
            ∧ List.Forall₂ (auditOk E m cfg) items news := by
  intro items
  induction items with
  | nil =>
    intro st _
    exact ⟨st, rfl, by simp, by simp, by simp, [], by simp, List.Forall₂.nil⟩
  | cons it rest ih =>
    intro st Hok
    obtain ⟨st1, hstep, hproc, helig, hskip⟩ :=
      processItem_spec E m cfg st it (Hok it (List.mem_cons_self it rest))
    obtain ⟨st2, hrun, hproc2, himp2, hskip2, news2, hlog2, hfa2⟩ :=
      ih st1 (fun it2 hit2 => Hok it2 (List.mem_cons_of_mem it hit2))
    have hloop : runItems E m cfg st (it :: rest) = .ok st2 := by
      rw [runItems, hstep]
      exact hrun
    by_cases he : eligible cfg it
    · obtain ⟨himp1, hskip1, pv, dv, sc, entry, hgv, hlog1, hres, hdc, hsc⟩ := helig he
      have hcp : (it :: rest).countP (fun it => eligible cfg it)
          = rest.countP (fun it => eligible cfg it) + 1 := by
        rw [List.countP_cons]
        simp [he]
      have hcn : (it :: rest).countP (fun it => !eligible cfg it)
          = rest.countP (fun it => !eligible cfg it) := by
        rw [List.countP_cons]
        simp [he]
      refine ⟨st2, hloop, ?_, ?_, ?_, (it, entry) :: news2, ?_, ?_⟩
      · rw [hproc2, hproc, List.length_cons]
        omega
      · rw [himp2, himp1, hcp]
        omega
      · rw [hskip2, hskip1, hcn]
      · rw [hlog2, hlog1, List.append_assoc, List.singleton_append]
      · refine List.Forall₂.cons ⟨rfl, ?_, ?_⟩ hfa2
        · intro hfalse
          rw [he] at hfalse
          cases hfalse
        · intro _
          exact ⟨hres, pv, dv, sc, hgv, hdc, hsc⟩
    · rw [Bool.not_eq_true] at he
      obtain ⟨himp1, hskip1, hlog1, _hstore1⟩ := hskip he
      have hcp : (it :: rest).countP (fun it => eligible cfg it)
          = rest.countP (fun it => eligible cfg it) := by
        rw [List.countP_cons]
        simp [he]
      have hcn : (it :: rest).countP (fun it => !eligible cfg it)
          = rest.countP (fun it => !eligible cfg it) + 1 := by
        rw [List.countP_cons]
        simp [he]
      refine ⟨st2, hloop, ?_, ?_, ?_, (it, skipEntry) :: news2, ?_, ?_⟩
      · rw [hproc2, hproc, List.length_cons]
        omega
      · rw [himp2, himp1, hcp]
      · rw [hskip2, hskip1, hcn]
        omega
      · rw [hlog2, hlog1, List.append_assoc, List.singleton_append]
      · refine List.Forall₂.cons ⟨rfl, fun _ => rfl, ?_⟩ hfa2
        intro htrue
        rw [he] at htrue
        cases htrue

/-- Claim C4: over any document whose eligible items all transform without a
fatal error, the run succeeds; `processed` counts every item, `imported`
counts exactly the eligible ones, `skipped` counts exactly the ineligible
ones (`N − E`), and the audit log has exactly one entry per item, in
document order, relating to each item as `auditOk` states: eligible items
are transformed and reconciled (`created`/`updated`), ineligible items get
exactly the skip entry with reason `no title or status match` and empty
validity fields. -/
theorem run_counts_and_audit {β : Type} (E : Externals β) (m : Mapping) (cfg : RunConfig)
    (items : List RawItem) (store0 : List PageObj)
    (Hok : ∀ it ∈ items, eligible cfg it = true → (get_values E m it).isOk = true) :
    ∃ r, run E m cfg items store0 = .ok r
      ∧ r.processed = items.length
      ∧ r.imported = items.countP (fun it => eligible cfg it)
      ∧ r.skipped = items.length - items.countP (fun it => eligible cfg it)
      ∧ List.Forall₂ (auditOk E m cfg) items r.logged := by
  obtain ⟨r, hrun, hproc, himp, hskip, news, hlog, hfa⟩ :=
    runItems_spec E m cfg items ⟨store0, 0, 0, 0, []⟩ Hok
  refine ⟨r, hrun, by simpa using hproc, by simpa using himp, ?_, ?_⟩
  · rw [hskip, countP_not_eq]
    simp
  · rw [hlog]
    simpa using hfa

/-- Witness for claim C4: a two-item document with one eligible post and one
ineligible attachment yields `processed = 2`, `imported = 1`, `skipped = 1`,
and a two-entry audit log whose first outcome is `created` and whose second
entry is the skip entry. -/
theorem run_counts_and_audit_witness :
    ∃ r, run idExternals wordpress_mapping exCfg [exItem, exSkipItem] [] = .ok r
      ∧ r.processed = 2 ∧ r.imported = 1 ∧ r.skipped = 1
      ∧ List.Forall₂ (auditOk idExternals wordpress_mapping exCfg)
          [exItem, exSkipItem] r.logged := by
  obtain ⟨r, hrun, hproc, himp, hskip, hfa⟩ :=
    run_counts_and_audit idExternals wordpress_mapping exCfg [exItem, exSkipItem] []
      (by decide)
  refine ⟨r, hrun, ?_, ?_, ?_, hfa⟩
  · rw [hproc]
    rfl
  · rw [himp]
    decide
  · rw [hskip]
    decide

/-! ## Identity effects of one step -/

theorem processItem_ideffects {β : Type} {E : Externals β} {m : Mapping} {cfg : RunConfig}
    {st st' : RunState} {item : RawItem}
    (Him : IdentityMapped m)
    (h : processItem E m cfg st item = .ok st') :
    (∀ pid, hasId st.store pid → hasId st'.store pid)
    ∧ (eligible cfg item = true → hasId st'.store (alistGet item "wp:post_id"))
    ∧ (eligible cfg item = true → hasId st.store (alistGet item "wp:post_id") →
        st'.store.length = st.store.length
        ∧ ∃ dv sc, st'.logged = st.logged
            ++ [(item, ⟨"updated", "existed", PyVal.pyBool dv, sc⟩)])
    ∧ (eligible cfg item = false →
        st'.store = st.store ∧ st'.logged = st.logged ++ [(item, skipEntry)]) := by
  by_cases he : eligible cfg item
  · cases hgv : get_values E m item with
    | error e =>
      have hstep : processItem E m cfg st item = .error e := by
        simp only [processItem, he, hgv, if_true]
      rw [hstep] at h
      cases h
    | ok triple =>
      obtain ⟨pv, dv, sc⟩ := triple
      obtain ⟨v, hv, hpv⟩ := get_values_wp_post_id Him hgv
      have hnodup := get_values_nodupKeys hgv
      cases hf : storeFind st.store (alistGet item "wp:post_id") with
      | some page =>
        have hstep : processItem E m cfg st item = .ok
            { store := replaceFirst (fun q => pageWpPostId q == alistGet item "wp:post_id")
                (update_page page pv (alistGet item "wp:status")).1 st.store,
              processed := st.processed + 1, imported := st.imported + 1,
              skipped := st.skipped,
              logged := st.logged ++ [(item, ⟨"updated", "existed", .pyBool dv, sc⟩)] } := by
          simp only [processItem, he, hgv, hf, if_true]
        rw [hstep] at h
        cases h
        have hnewid : pageWpPostId (update_page page pv (alistGet item "wp:status")).1
            = alistGet item "wp:post_id" := by
          rw [update_page_wpPostId hnodup hpv, hv]
        refine ⟨?_, ?_, ?_, ?_⟩
        · intro pid hpid
          exact replaceFirst_hasId hnewid
            (fun q hq => by simpa [beq_iff_eq] using hq) st.store pid hpid
        · intro _
          have hf2 : st.store.find?
              (fun q => pageWpPostId q == alistGet item "wp:post_id") = some page := hf
          have hmem := List.mem_of_find?_eq_some hf2
          have hpred := List.find?_some hf2
          refine ⟨(update_page page pv (alistGet item "wp:status")).1, ?_, hnewid⟩
          exact replaceFirst_mem_new _ _ st.store ⟨page, hmem, hpred⟩
        · intro _ _
          exact ⟨replaceFirst_length _ _ _, dv, sc, rfl⟩
        · intro hfalse
          rw [he] at hfalse
          cases hfalse
      | none =>
        have hstep : processItem E m cfg st item = .ok
            { store := st.store ++ [(create_page pv (alistGet item "wp:status")).1],
              processed := st.processed + 1, imported := st.imported + 1,
              skipped := st.skipped,
              logged := st.logged ++ [(item, ⟨"created", "new", .pyBool dv, sc⟩)] } := by
          simp only [processItem, he, hgv, hf, if_true]
        rw [hstep] at h
        cases h
        have hfields : (create_page pv (alistGet item "wp:status")).1.fields = pv := rfl
        have hnewid : pageWpPostId (create_page pv (alistGet item "wp:status")).1
            = alistGet item "wp:post_id" := by
          unfold pageWpPostId
          rw [hfields, hpv, hv]
        refine ⟨?_, ?_, ?_, ?_⟩
        · rintro pid ⟨p, hp, hpid⟩
          exact ⟨p, List.mem_append_left _ hp, hpid⟩
        · intro _
          exact ⟨(create_page pv (alistGet item "wp:status")).1,
            List.mem_append_right _ (List.mem_singleton.mpr rfl), hnewid⟩
        · intro _ hpid
          obtain ⟨p, hpf, _⟩ := storeFind_of_hasId hpid
          rw [hf] at hpf
          cases hpf
        · intro hfalse
          rw [he] at hfalse
          cases hfalse
  · rw [Bool.not_eq_true] at he
    have hstep : processItem E m cfg st item = .ok
        { store := st.store, processed := st.processed + 1, imported := st.imported,
          skipped := st.skipped + 1, logged := st.logged ++ [(item, skipEntry)] } := by
      simp only [processItem, he, Bool.false_eq_true, if_false]
    rw [hstep] at h
    cases h
    refine ⟨fun pid hpid => hpid, ?_, ?_, fun _ => ⟨rfl, rfl⟩⟩
    · intro htrue
      rw [he] at htrue
      cases htrue
    · intro htrue
      rw [he] at htrue
      cases htrue

/-! ## Identity effects across a whole run -/

theorem runItems_monotone_and_first {β : Type} {E : Externals β} {m : Mapping}
    {cfg : RunConfig} (Him : IdentityMapped m) :
    ∀ (items : List RawItem) (st st' : RunState),
      runItems E m cfg st items = .ok st' →
      (∀ pid, hasId st.store pid → hasId st'.store pid)
      ∧ (∀ it ∈ items, eligible cfg it = true → hasId st'.store (alistGet it "wp:post_id"))
      ∧ (∀ it ∈ items, eligible cfg it = true → (get_values E m it).isOk = true) := by
  intro items
  induction items with
  | nil =>
    intro st st' h
    cases h
    exact ⟨fun pid hp => hp,
      fun it hit => absurd hit (List.not_mem_nil it),
      fun it hit => absurd hit (List.not_mem_nil it)⟩
  | cons it rest ih =>
    intro st st' h
    cases hp : processItem E m cfg st it with
    | error e => rw [runItems, hp] at h; cases h
    | ok st1 =>
      rw [runItems, hp] at h
      obtain ⟨hmono1, hestab1, _hupd1, _hskip1⟩ := processItem_ideffects Him hp
      obtain ⟨hmono2, hestab2, hok2⟩ := ih st1 st' h
      refine ⟨fun pid hpid => hmono2 pid (hmono1 pid hpid), ?_, ?_⟩
      · intro it2 hit2 he2
        rcases List.mem_cons.mp hit2 with rfl | hit3
        · exact hmono2 _ (hestab1 he2)
        · exact hestab2 it2 hit3 he2
      · intro it2 hit2 he2
        rcases List.mem_cons.mp hit2 with rfl | hit3
        · cases hgv : get_values E m it2 with
          | error e =>
            have hstep : processItem E m cfg st it2 = .error e := by
              simp only [processItem, he2, hgv, if_true]
            rw [hstep] at hp
            cases hp
          | ok tr => rfl
        · exact hok2 it2 hit3 he2

theorem runItems_second {β : Type} {E : Externals β} {m : Mapping} {cfg : RunConfig}
    (Him : IdentityMapped m) :
    ∀ (items : List RawItem) (st st' : RunState),
      runItems E m cfg st items = .ok st' →
      (∀ it ∈ items, eligible cfg it = true → hasId st.store (alistGet it "wp:post_id")) →
      st'.store.length = st.store.length
      ∧ ∃ news, st'.logged = st.logged ++ news
          ∧ List.Forall₂ (fun it e =>
              (eligible cfg it = true → e.2.result = "updated")
              ∧ (eligible cfg it = false → e.2 = skipEntry)) items news := by
  intro items
  induction items with
  | nil =>
    intro st st' h _
    cases h
    exact ⟨rfl, [], by simp, List.Forall₂.nil⟩
  | cons it rest ih =>
    intro st st' h hids
    cases hp : processItem E m cfg st it with
    | error e => rw [runItems, hp] at h; cases h
    | ok st1 =>
      rw [runItems, hp] at h
      obtain ⟨hmono1, _hestab1, hupd1, hskip1⟩ := processItem_ideffects Him hp
      by_cases he : eligible cfg it
      · obtain ⟨hlen1, dv, sc, hlog1⟩ :=
          hupd1 he (hids it (List.mem_cons_self it rest) he)
        obtain ⟨hlen2, news2, hlog2, hfa2⟩ := ih st1 st' h
          (fun it2 hit2 he2 =>
            hmono1 _ (hids it2 (List.mem_cons_of_mem it hit2) he2))
        refine ⟨by rw [hlen2, hlen1],
          (it, ⟨"updated", "existed", PyVal.pyBool dv, sc⟩) :: news2, ?_, ?_⟩
        · rw [hlog2, hlog1, List.append_assoc, List.singleton_append]
        · refine List.Forall₂.cons ⟨fun _ => rfl, ?_⟩ hfa2
          intro hfalse
          rw [he] at hfalse
          cases hfalse
      · rw [Bool.not_eq_true] at he
        obtain ⟨hstore1, hlog1⟩ := hskip1 he
        obtain ⟨hlen2, news2, hlog2, hfa2⟩ := ih st1 st' h
          (fun it2 hit2 he2 => by
            rw [hstore1]
            exact hids it2 (List.mem_cons_of_mem it hit2) he2)
        refine ⟨by rw [hlen2, hstore1], (it, skipEntry) :: news2, ?_, ?_⟩
        · rw [hlog2, hlog1, List.append_assoc, List.singleton_append]
        · refine List.Forall₂.cons ⟨?_, fun _ => rfl⟩ hfa2
          intro htrue
          rw [he] at htrue
          cases htrue

/-! ## Claim C1: idempotent reconciliation by identity -/

/-- Claim C1: with the spec's identity mapping (`wp:post_id` feeding the
page's `wp_post_id` field, which no later normalizer overwrites), running
the import twice over the same document against the same target store
creates no duplicate records: the second run succeeds on the first run's
store, adds no page to it, and its outcome for every eligible item is
`updated` — no item's outcome is `created`. -/
theorem run_idempotent_second_run {β : Type} (E : Externals β) (m : Mapping)
    (cfg : RunConfig) (items : List RawItem) (store0 : List PageObj) (r1 : RunState)
    (Him : IdentityMapped m)
    (h1 : run E m cfg items store0 = .ok r1) :
    ∃ r2, run E m cfg items r1.store = .ok r2
      ∧ r2.store.length = r1.store.length
      ∧ List.Forall₂ (fun it e =>
          (eligible cfg it = true → e.2.result = "updated")
          ∧ e.2.result ≠ "created") items r2.logged := by
  obtain ⟨_hmono, hestab, hok⟩ := runItems_monotone_and_first Him items _ r1 h1
  obtain ⟨r2, hrun2, _, _, _, _⟩ :=
    runItems_spec E m cfg items ⟨r1.store, 0, 0, 0, []⟩ hok
  obtain ⟨hlen, news, hlog, hfa⟩ :=
    runItems_second Him items _ r2 hrun2 (fun it hit he => hestab it hit he)
  have hnews : r2.logged = news := by simpa using hlog
  refine ⟨r2, hrun2, by simpa using hlen, ?_⟩
  rw [hnews]
  refine hfa.imp ?_
  rintro it e ⟨hupd, hskip⟩
  by_cases he : eligible cfg it
  · refine ⟨hupd, ?_⟩
    rw [hupd he]
    decide
  · rw [Bool.not_eq_true] at he
    refine ⟨?_, ?_⟩
    · intro htrue
      rw [he] at htrue
      cases htrue
    · rw [hskip he]
      decide

/-- Witness for claim C1: a two-item document (one eligible post, one
ineligible attachment) run twice from an empty store with the modelled
mapping — the second run adds no page and reports `updated` for the
eligible item. -/
theorem run_idempotent_witness :
    ∃ r1 r2, run idExternals wordpress_mapping exCfg [exItem, exSkipItem] [] = .ok r1
      ∧ run idExternals wordpress_mapping exCfg [exItem, exSkipItem] r1.store = .ok r2
      ∧ r2.store.length = r1.store.length
      ∧ List.Forall₂ (fun it e =>
          (eligible exCfg it = true → e.2.result = "updated")
          ∧ e.2.result ≠ "created") [exItem, exSkipItem] r2.logged := by
  obtain ⟨r2, h1, h2, h3⟩ := run_idempotent_second_run idExternals wordpress_mapping exCfg
    [exItem, exSkipItem] [] _ ⟨by decide, by decide, by decide, by decide⟩ rfl
  exact ⟨_, r2, rfl, h1, h2, h3⟩

end WpImport
